import Mathlib

/-!
Formal model of the Text-Scrapper repository (src/bot.py).

The file shallowly embeds the string-processing core of `bot.py`:
the helper `normalize_exp`, and the extraction/validation pipeline of
`process_file` (regex candidate extraction, ordered validation with
rejection counters, ordered accumulation of accepted records).

Strings are modelled as `List Char`.  Python-specific primitives
(`str.strip`, `str.zfill`, `str.replace`, slicing `[-2:]`, `int` on a
digit string, truthiness of an optional string) are embedded as the
functions `pyStrip`, `pyZfill`, `replaceSlash`/`removeSpaces`,
`takeRight`, `strToNat`, `binRejects` below.  Whitespace (`\s` in the
regex, `str.strip`) is modelled as the ASCII whitespace class; `\d` and
`str.isdigit` are modelled as the ASCII digits, which is what every
input considered here uses.

The regular expression

  (\d{16})\s*[|]\s*(\d{1,2})\s*[|]\s*(\d{2,4})\s*[|]\s*(\d{3,4})

used with `re.findall` is embedded as the scanner `findAll`.  Because
every quantifier in the pattern is followed by a character class
disjoint from it (digits before `|`, whitespace before `|` or digits),
the backtracking search of Python's engine is deterministic here: each
digit group must consume its entire contiguous digit run (capped by the
upper bound for the final group, which has no following context), and
each `\s*` consumes its maximal whitespace run.  `findAll` scans every
start position left to right and resumes after the end of each match,
exactly as `re.findall` does for non-empty matches.
-/

namespace TextScrapper

/-- ASCII whitespace, the characters matched by `\s` and stripped by
`str.strip` for the inputs considered here. -/
def isPySpace (c : Char) : Bool :=
  c == ' ' || c == '\t' || c == '\n' || c == '\r' || c == '\x0b' || c == '\x0c'

/-- Python `s.strip()`: drop whitespace from both ends. -/
def pyStrip (s : List Char) : List Char :=
  ((s.dropWhile isPySpace).reverse.dropWhile isPySpace).reverse

/-- Python `s.replace("/", "|")` from `normalize_exp`. -/
def replaceSlash (s : List Char) : List Char :=
  s.map (fun c => if c = '/' then '|' else c)

/-- Python `s.replace(" ", "")` from `normalize_exp`. -/
def removeSpaces (s : List Char) : List Char :=
  s.filter (fun c => c != ' ')

/-- The cleaning phase of `normalize_exp` (bot.py line 33):
`exp.strip().replace("/", "|").replace(" ", "")`. -/
def cleanExp (s : List Char) : List Char :=
  removeSpaces (replaceSlash (pyStrip s))

/-- Python `s.zfill(w)`: left-pad with zeros to width `w`; a leading
sign character keeps its position, with zeros inserted after it; a
string of length at least `w` is returned unchanged (the number of
inserted zeros, `w - length`, is then zero). -/
def pyZfill (w : Nat) (s : List Char) : List Char :=
  match s with
  | [] => List.replicate w '0'
  | c :: rest =>
    if c = '-' ∨ c = '+' then c :: (List.replicate (w - (c :: rest).length) '0' ++ rest)
    else List.replicate (w - (c :: rest).length) '0' ++ (c :: rest)

/-- Python slicing `s[-n:]`: the rightmost `n` characters (the whole
string when it is shorter than `n`). -/
def takeRight (n : Nat) (s : List Char) : List Char :=
  s.drop (s.length - n)

/-- Python `s.isdigit()` on ASCII data: non-empty and all digits. -/
def pyIsDigit (s : List Char) : Bool :=
  !s.isEmpty && s.all Char.isDigit

/-- Python `int(s)` for a digit string (the only use in bot.py is on
`yy_clean`, which is all digits). -/
def strToNat (s : List Char) : Nat :=
  s.foldl (fun a c => 10 * a + (c.toNat - '0'.toNat)) 0

/-- The year branch of `normalize_exp` (bot.py line 38):
`year[-2:].zfill(2) if len(year) > 2 else year.zfill(2)`. -/
def yearNorm (y : List Char) : List Char :=
  if 2 < y.length then pyZfill 2 (takeRight 2 y) else pyZfill 2 y

/-- `normalize_exp` (bot.py lines 32-39): clean the string; if no `|`
remains return the cleaned string; otherwise split at the first `|`,
zero-pad the month to two characters and normalize the year. -/
def normalize_exp (exp : List Char) : List Char :=
  let e := cleanExp exp
  if '|' ∈ e then
    let m := e.takeWhile (fun c => c != '|')
    let y := (e.dropWhile (fun c => c != '|')).tail
    pyZfill 2 m ++ '|' :: yearNorm y
  else e

/-- The inline year normalization of the pipeline (bot.py line 86):
`yy[-2:].zfill(2)`. -/
def yyCleanInline (yy : List Char) : List Char :=
  pyZfill 2 (takeRight 2 yy)

/-- A four-field candidate produced by the extraction pattern
(the tuple `(card, mm, yy, cvv)` of bot.py line 72). -/
structure Cand where
  card : List Char
  mm : List Char
  yy : List Char
  cvv : List Char
deriving DecidableEq, Repr

/-- `\s*`: skip the maximal whitespace run. -/
def skipWs (s : List Char) : List Char :=
  s.dropWhile isPySpace

/-- Try to match the pattern
`(\d{16})\s*[|]\s*(\d{1,2})\s*[|]\s*(\d{2,4})\s*[|]\s*(\d{3,4})`
at the start of `s`.  On success return the captured candidate and the
remainder of the input after the match. -/
def matchAt (s : List Char) : Option (Cand × List Char) :=
  let card := s.take 16
  if card.length = 16 ∧ card.all Char.isDigit then
    match skipWs (s.drop 16) with
    | '|' :: r2 =>
      let r3 := skipWs r2
      let mm := r3.takeWhile Char.isDigit
      if 1 ≤ mm.length ∧ mm.length ≤ 2 then
        match skipWs (r3.drop mm.length) with
        | '|' :: r5 =>
          let r6 := skipWs r5
          let yy := r6.takeWhile Char.isDigit
          if 2 ≤ yy.length ∧ yy.length ≤ 4 then
            match skipWs (r6.drop yy.length) with
            | '|' :: r8 =>
              let r9 := skipWs r8
              let cr := r9.takeWhile Char.isDigit
              if 3 ≤ cr.length then
                some (⟨card, mm, yy, cr.take 4⟩, r9.drop (min cr.length 4))
              else none
            | _ => none
          else none
        | _ => none
      else none
    | _ => none
  else none

/-- Fuel-indexed scanner: try `matchAt` at every position, resuming
after the end of each match.  The fuel only bounds the recursion depth;
`s.length` fuel is always sufficient because every successful match
consumes at least one character (in fact at least 24). -/
def findAllAux : Nat → List Char → List Cand
  | 0, _ => []
  | _, [] => []
  | fuel + 1, c :: rest =>
    match matchAt (c :: rest) with
    | some (cand, r) => cand :: findAllAux fuel r
    | none => findAllAux fuel rest

/-- `re.findall(pattern, text)` (bot.py lines 59-60). -/
def findAll (s : List Char) : List Cand :=
  findAllAux s.length s

/-- The rejection counters of `process_file` (bot.py line 49). -/
inductive Reason where
  | badLength
  | badDigits
  | badCvv
  | old
  | noBinMatch
deriving DecidableEq, Repr

/-- A validated, normalized record (the four fields interpolated into
the output line at bot.py line 103). -/
structure NormalizedRecord where
  number : List Char
  expMonth : List Char
  expYear : List Char
  securityCode : List Char
deriving DecidableEq, Repr

/-- Python `if target_bin and not card.startswith(target_bin)`
(bot.py line 99): an absent or empty prefix never rejects. -/
def binRejects (tb : Option (List Char)) (card : List Char) : Bool :=
  match tb with
  | none => false
  | some b => !b.isEmpty && !(List.isPrefixOf b card)

/-- The validation body of the loop of `process_file`
(bot.py lines 72-103), for one candidate: ordered, short-circuiting
checks producing either the first applicable rejection reason or the
normalized record appended to the results. -/
def validateCand (currentYY : Nat) (tb : Option (List Char)) (c : Cand) :
    Except Reason NormalizedRecord :=
  if c.card.length ≠ 16 then .error .badLength
  else if ¬ c.card.all Char.isDigit then .error .badDigits
  else
    let mmClean := pyZfill 2 c.mm
    let yyClean := yyCleanInline c.yy
    let cvvClean := pyStrip c.cvv
    if pyIsDigit cvvClean = false ∨ ¬ (cvvClean.length = 3 ∨ cvvClean.length = 4) then
      .error .badCvv
    else if (strToNat yyClean : Int) < (currentYY : Int) - 6 then .error .old
    else if binRejects tb c.card then .error .noBinMatch
    else .ok ⟨c.card, mmClean, yyClean, cvvClean⟩

/-- The mutable state of one `process_file` run: the accepted records
in order, and the five rejection counters. -/
structure RunState where
  results : List NormalizedRecord
  badLength : Nat
  badDigits : Nat
  badCvv : Nat
  old : Nat
  noBinMatch : Nat
deriving DecidableEq, Repr

def initState : RunState := ⟨[], 0, 0, 0, 0, 0⟩

/-- One iteration of the candidate loop of `process_file`. -/
def stepCand (currentYY : Nat) (tb : Option (List Char)) (st : RunState) (c : Cand) :
    RunState :=
  match validateCand currentYY tb c with
  | .ok r => { st with results := st.results ++ [r] }
  | .error .badLength => { st with badLength := st.badLength + 1 }
  | .error .badDigits => { st with badDigits := st.badDigits + 1 }
  | .error .badCvv => { st with badCvv := st.badCvv + 1 }
  | .error .old => { st with old := st.old + 1 }
  | .error .noBinMatch => { st with noBinMatch := st.noBinMatch + 1 }

/-- The extraction/validation core of `process_file` (bot.py lines
58-104): extract all candidates, then fold the validation loop over
them in order.  `currentYY` is `datetime.now().year % 100` and `tb` is
`target_bin`. -/
def processFile (text : List Char) (currentYY : Nat) (tb : Option (List Char)) :
    RunState :=
  (findAll text).foldl (stepCand currentYY tb) initState

/-- The serialization of one accepted record
(bot.py line 103): `f"{card}|{mm_clean}|{yy_clean}|{cvv_clean}\n"`. -/
def serializeRecord (r : NormalizedRecord) : List Char :=
  r.number ++ '|' :: (r.expMonth ++ '|' :: (r.expYear ++ '|' :: (r.securityCode ++ ['\n'])))

/-! ### Basic lemmas about the Python string primitives -/

lemma pyZfill_of_le (w : Nat) (s : List Char) (h : w ≤ s.length) : pyZfill w s = s := by
  cases s with
  | nil =>
    simp only [List.length_nil, Nat.le_zero] at h
    simp [pyZfill, h]
  | cons c rest =>
    have hz : w - (c :: rest).length = 0 := by omega
    simp only [pyZfill, hz]
    split <;> simp

lemma length_pyZfill (w : Nat) (s : List Char) :
    (pyZfill w s).length = max w s.length := by
  cases s with
  | nil =>
    simp [pyZfill]
  | cons c rest =>
    simp only [pyZfill]
    split <;>
      simp only [List.length_cons, List.length_append, List.length_replicate] <;>
      omega

lemma length_takeRight (n : Nat) (s : List Char) :
    (takeRight n s).length = min n s.length := by
  unfold takeRight
  simp
  omega

lemma takeRight_of_le (n : Nat) (s : List Char) (h : s.length ≤ n) :
    takeRight n s = s := by
  unfold takeRight
  have hz : s.length - n = 0 := by omega
  rw [hz]
  exact List.drop_zero s

/-- The conditional year branch of `normalize_exp` computes the same
value as the unconditional `right two characters, zero-padded`. -/
lemma yearNorm_eq_takeRight (y : List Char) :
    yearNorm y = pyZfill 2 (takeRight 2 y) := by
  unfold yearNorm
  split
  · rfl
  · rw [takeRight_of_le 2 y (by omega)]

lemma length_yearNorm (y : List Char) : (yearNorm y).length = 2 := by
  rw [yearNorm_eq_takeRight, length_pyZfill, length_takeRight]
  omega

/-! ### Lemmas about the validator and the aggregation loop -/

/-- The record accepted by the validator always carries a security code
of length 3 or 4 (the stripped raw code, guarded by the cvv check). -/
lemma validateCand_ok_code {cy : Nat} {tb : Option (List Char)} {c : Cand}
    {r : NormalizedRecord} (h : validateCand cy tb c = .ok r) :
    r.securityCode.length = 3 ∨ r.securityCode.length = 4 := by
  simp only [validateCand] at h
  by_cases h1 : c.card.length ≠ 16
  · rw [if_pos h1] at h
    simp at h
  rw [if_neg h1] at h
  by_cases h2 : ¬ c.card.all Char.isDigit = true
  · rw [if_pos h2] at h
    simp at h
  rw [if_neg h2] at h
  by_cases h3 : pyIsDigit (pyStrip c.cvv) = false ∨
      ¬ ((pyStrip c.cvv).length = 3 ∨ (pyStrip c.cvv).length = 4)
  · rw [if_pos h3] at h
    simp at h
  rw [if_neg h3] at h
  by_cases h4 : (strToNat (yyCleanInline c.yy) : Int) < (cy : Int) - 6
  · rw [if_pos h4] at h
    simp at h
  rw [if_neg h4] at h
  by_cases h5 : binRejects tb c.card = true
  · rw [if_pos h5] at h
    simp at h
  rw [if_neg h5] at h
  injection h with h'
  subst h'
  push_neg at h3
  simpa using h3.2

/-- A candidate whose number field is 16 digits can never hit the
`bad_length` or `bad_digits` branches of the validator. -/
lemma validateCand_not_bad {cy : Nat} {tb : Option (List Char)} {c : Cand}
    (h16 : c.card.length = 16) (hdig : c.card.all Char.isDigit = true) :
    validateCand cy tb c ≠ .error .badLength ∧
      validateCand cy tb c ≠ .error .badDigits := by
  simp only [validateCand]
  rw [if_neg (by simp [h16]), if_neg (by simp [hdig])]
  by_cases h3 : pyIsDigit (pyStrip c.cvv) = false ∨
      ¬ ((pyStrip c.cvv).length = 3 ∨ (pyStrip c.cvv).length = 4)
  · rw [if_pos h3]
    exact ⟨by simp, by simp⟩
  rw [if_neg h3]
  by_cases h4 : (strToNat (yyCleanInline c.yy) : Int) < (cy : Int) - 6
  · rw [if_pos h4]
    exact ⟨by simp, by simp⟩
  rw [if_neg h4]
  by_cases h5 : binRejects tb c.card = true
  · rw [if_pos h5]
    exact ⟨by simp, by simp⟩
  rw [if_neg h5]
  exact ⟨by simp, by simp⟩

/-- Each loop iteration either appends one accepted record or bumps one
counter: the total tally grows by exactly one. -/
lemma stepCand_total (cy : Nat) (tb : Option (List Char)) (st : RunState) (c : Cand) :
    (stepCand cy tb st c).results.length + (stepCand cy tb st c).badLength +
        (stepCand cy tb st c).badDigits + (stepCand cy tb st c).badCvv +
        (stepCand cy tb st c).old + (stepCand cy tb st c).noBinMatch =
      st.results.length + st.badLength + st.badDigits + st.badCvv +
        st.old + st.noBinMatch + 1 := by
  unfold stepCand
  cases h : validateCand cy tb c with
  | ok r =>
    simp only [List.length_append, List.length_cons, List.length_nil]
    omega
  | error e => cases e <;> simp <;> omega

lemma foldl_total (cy : Nat) (tb : Option (List Char)) :
    ∀ (cs : List Cand) (st : RunState),
      (cs.foldl (stepCand cy tb) st).results.length +
          (cs.foldl (stepCand cy tb) st).badLength +
          (cs.foldl (stepCand cy tb) st).badDigits +
          (cs.foldl (stepCand cy tb) st).badCvv +
          (cs.foldl (stepCand cy tb) st).old +
          (cs.foldl (stepCand cy tb) st).noBinMatch =
        st.results.length + st.badLength + st.badDigits + st.badCvv +
          st.old + st.noBinMatch + cs.length
  | [], st => by simp
  | c :: cs, st => by
    rw [List.foldl_cons]
    rw [foldl_total cy tb cs (stepCand cy tb st c)]
    rw [stepCand_total cy tb st c]
    simp
    omega

/-- The accepted list of the loop is the in-order `filterMap` of the
validator over the candidate stream. -/
lemma foldl_results (cy : Nat) (tb : Option (List Char)) :
    ∀ (cs : List Cand) (st : RunState),
      (cs.foldl (stepCand cy tb) st).results =
        st.results ++ cs.filterMap (fun c => (validateCand cy tb c).toOption)
  | [], st => by simp
  | c :: cs, st => by
    rw [List.foldl_cons]
    rw [foldl_results cy tb cs (stepCand cy tb st c)]
    rw [List.filterMap_cons]
    cases h : validateCand cy tb c with
    | ok r => simp [stepCand, h, Except.toOption]
    | error e => cases e <;> simp [stepCand, h, Except.toOption]

/-- The bad-length and bad-digits counters never move while folding over
candidates whose number field is 16 digits. -/
lemma foldl_bad (cy : Nat) (tb : Option (List Char)) :
    ∀ (cs : List Cand) (st : RunState),
      (∀ c ∈ cs, c.card.length = 16 ∧ c.card.all Char.isDigit = true) →
      (cs.foldl (stepCand cy tb) st).badLength = st.badLength ∧
        (cs.foldl (stepCand cy tb) st).badDigits = st.badDigits
  | [], st, _ => by simp
  | c :: cs, st, hall => by
    rw [List.foldl_cons]
    have hc := hall c (List.mem_cons_self c cs)
    have hrest := fun d hd => hall d (List.mem_cons_of_mem c hd)
    have hstep : (stepCand cy tb st c).badLength = st.badLength ∧
        (stepCand cy tb st c).badDigits = st.badDigits := by
      have hnb := @validateCand_not_bad cy tb c hc.1 hc.2
      unfold stepCand
      cases h : validateCand cy tb c with
      | ok r => simp
      | error e =>
        cases e with
        | badLength => exact absurd h hnb.1
        | badDigits => exact absurd h hnb.2
        | badCvv => simp
        | old => simp
        | noBinMatch => simp
    have := foldl_bad cy tb cs (stepCand cy tb st c) hrest
    omega

/-! ### Soundness of the extraction pattern -/

/-- Every candidate produced by the pattern has a number field of
exactly 16 digit characters: the `(\d{16})` group. -/
lemma matchAt_card {s : List Char} {c : Cand} {r : List Char}
    (h : matchAt s = some (c, r)) :
    c.card.length = 16 ∧ c.card.all Char.isDigit = true := by
  simp only [matchAt] at h
  split at h
  case isFalse => exact Option.noConfusion h
  case isTrue hcond =>
    repeat' split at h
    all_goals try exact Option.noConfusion h
    injection h with hp
    injection hp with hA hB
    subst hA
    simpa using hcond

lemma findAllAux_card :
    ∀ (fuel : Nat) (s : List Char) (c : Cand), c ∈ findAllAux fuel s →
      c.card.length = 16 ∧ c.card.all Char.isDigit = true := by
  intro fuel
  induction fuel with
  | zero =>
    intro s c hc
    simp [findAllAux] at hc
  | succ n ih =>
    intro s c hc
    cases s with
    | nil => simp [findAllAux] at hc
    | cons a t =>
      cases hm : matchAt (a :: t) with
      | none =>
        simp only [findAllAux, hm] at hc
        exact ih t c hc
      | some pr =>
        obtain ⟨cand, rest⟩ := pr
        simp only [findAllAux, hm] at hc
        rcases List.mem_cons.mp hc with h1 | h2
        · subst h1
          exact matchAt_card hm
        · exact ih rest c h2

lemma findAll_card (s : List Char) (c : Cand) (h : c ∈ findAll s) :
    c.card.length = 16 ∧ c.card.all Char.isDigit = true :=
  findAllAux_card s.length s c h

/-! ### Fidelity of the fuelled scanner

A successful match consumes at least one character (in fact at least
24), so `s.length` fuel never runs out: `findAll` satisfies the
unfuelled recurrence of `re.findall`. -/

lemma length_skipWs_le (l : List Char) : (skipWs l).length ≤ l.length :=
  (List.dropWhile_suffix _).length_le

lemma matchAt_length_lt {s : List Char} {c : Cand} {r : List Char}
    (h : matchAt s = some (c, r)) : r.length < s.length := by
  simp only [matchAt] at h
  split at h
  case isFalse => exact Option.noConfusion h
  case isTrue hcond =>
    repeat' split at h
    all_goals try exact Option.noConfusion h
    injection h with hp
    injection hp with hA hB
    rename_i xA A heqA hmm xB B heqB hyy xC C heqC hcr
    have l1 := length_skipWs_le (List.drop 16 s)
    rw [heqA] at l1
    simp only [List.length_cons, List.length_drop] at l1
    have l2 := length_skipWs_le
      (List.drop (List.takeWhile Char.isDigit (skipWs A)).length (skipWs A))
    rw [heqB] at l2
    simp only [List.length_cons, List.length_drop] at l2
    have l2b := length_skipWs_le A
    have l3 := length_skipWs_le
      (List.drop (List.takeWhile Char.isDigit (skipWs B)).length (skipWs B))
    rw [heqC] at l3
    simp only [List.length_cons, List.length_drop] at l3
    have l3b := length_skipWs_le B
    have l4 : r.length ≤ (skipWs C).length := by
      rw [← hB, List.length_drop]
      omega
    have l4b := length_skipWs_le C
    omega

lemma findAllAux_eq :
    ∀ (fuel fuel' : Nat) (s : List Char), s.length ≤ fuel → s.length ≤ fuel' →
      findAllAux fuel s = findAllAux fuel' s := by
  intro fuel
  induction fuel with
  | zero =>
    intro fuel' s h _
    have hs : s = [] := by
      cases s with
      | nil => rfl
      | cons a t => simp at h
    subst hs
    cases fuel' <;> rfl
  | succ n ih =>
    intro fuel' s h h'
    cases s with
    | nil => cases fuel' <;> rfl
    | cons a t =>
      cases fuel' with
      | zero => simp at h'
      | succ n' =>
        simp only [findAllAux]
        cases hm : matchAt (a :: t) with
        | none =>
          exact ih n' t (by simp at h; omega) (by simp at h'; omega)
        | some pr =>
          obtain ⟨cand, rest⟩ := pr
          have hlt := matchAt_length_lt hm
          simp only [List.length_cons] at hlt h h'
          exact congrArg (cand :: ·) (ih n' rest (by omega) (by omega))

/-- `findAll` satisfies the natural one-step recurrence of the scan:
match at the current position, emit and resume after the match on
success, else advance one character. -/
lemma findAll_cons (a : Char) (t : List Char) :
    findAll (a :: t) =
      match matchAt (a :: t) with
      | some (cand, r) => cand :: findAll r
      | none => findAll t := by
  show findAllAux (a :: t).length (a :: t) = _
  simp only [List.length_cons, findAllAux]
  cases hm : matchAt (a :: t) with
  | none => rfl
  | some pr =>
    obtain ⟨cand, rest⟩ := pr
    have hlt := matchAt_length_lt hm
    simp only [List.length_cons] at hlt
    exact congrArg (cand :: ·)
      (findAllAux_eq t.length rest.length rest (by omega) (le_refl _))

/-! ### The claims -/

/-- Claim C1 (code behavior at the claimed failing input): the claim
says a contiguous run of more than 16 digits never yields an accepted
candidate whose number field is a truncated 16-digit slice of that run,
and in particular a 17-digit run followed by `|01|25|123` produces no
accepted record.  The code has no boundary anchoring: on the input
`12345678901234567|01|25|123` (17-digit run) with current two-digit
year 26 and no BIN filter, the scan fails at offset 0 but matches at
offset 1, and the pipeline accepts one record whose number is the last
16 digits of the run.  This contradicts the claim (and the spec's
explicit anchoring requirement), exhibiting the defect the spec calls
out. -/
theorem claim_C1 :
    (processFile (("12345678901234567|01|25|123").data) 26 none).results =
      [⟨("2345678901234567").data, ("01").data, ("25").data, ("123").data⟩] := by
  decide

/-- Claim C2, counterexample: the claim says every accepted record's
security code has length exactly 3.  On input
`4000123456789010|05|25|1234` the pipeline accepts a record whose
security code is the four characters `1234`. -/
theorem claim_C2_counterexample :
    ¬ (∀ r ∈ (processFile (("4000123456789010|05|25|1234").data) 26 none).results,
        r.securityCode.length = 3) := by
  decide

/-- Claim C2, amended: every record accepted into the output has a
security code of length 3 or 4 (the validator checks membership of the
stripped code's length in {3, 4}; it does not pin the 16-digit family
to a 3-digit code). -/
theorem claim_C2 (text : List Char) (cy : Nat) (tb : Option (List Char)) :
    ((processFile text cy tb).results.all
        (fun r => r.securityCode.length == 3 || r.securityCode.length == 4)) = true := by
  rw [List.all_eq_true]
  intro r hr
  have hres := foldl_results cy tb (findAll text) initState
  rw [processFile] at hr
  rw [hres] at hr
  simp only [initState, List.nil_append] at hr
  obtain ⟨c, hc, hv⟩ := List.mem_filterMap.mp hr
  have hok : validateCand cy tb c = .ok r := by
    cases hvc : validateCand cy tb c with
    | ok r' =>
      rw [hvc] at hv
      simp only [Except.toOption, Option.some.injEq] at hv
      rw [hv]
    | error e =>
      rw [hvc] at hv
      simp [Except.toOption] at hv
  rcases validateCand_ok_code hok with h3 | h4
  · simp [h3]
  · simp [h4]

/-- Claim C4: every extracted candidate is either appended to the
accepted output or counted under exactly one rejection reason, so the
number of candidates equals the accepted count plus the sum of all five
rejection counters, for every input, year and BIN filter; the run is a
total function, so it always completes with these counts. -/
theorem claim_C4 (text : List Char) (cy : Nat) (tb : Option (List Char)) :
    (findAll text).length =
      (processFile text cy tb).results.length + (processFile text cy tb).badLength +
        (processFile text cy tb).badDigits + (processFile text cy tb).badCvv +
        (processFile text cy tb).old + (processFile text cy tb).noBinMatch := by
  have h := foldl_total cy tb (findAll text) initState
  simp only [processFile, initState, List.length_nil] at h ⊢
  omega

/-- Claim C8: the accepted output list is exactly the in-order
`filterMap` of the validator over the extractor's candidate stream:
order is preserved and repeated identical candidates each contribute
their own record (no deduplication). -/
theorem claim_C8 (text : List Char) (cy : Nat) (tb : Option (List Char)) :
    (processFile text cy tb).results =
      (findAll text).filterMap (fun c => (validateCand cy tb c).toOption) := by
  have h := foldl_results cy tb (findAll text) initState
  simpa [processFile, initState] using h

/-- Claim C10: the extraction pattern captures exactly 16 digit
characters for the number field, so the `bad_length` and `bad_digits`
branches of the validator are unreachable and those two counters are
zero in every final summary. -/
theorem claim_C10 (text : List Char) (cy : Nat) (tb : Option (List Char)) :
    (processFile text cy tb).badLength = 0 ∧ (processFile text cy tb).badDigits = 0 := by
  have hall : ∀ c ∈ findAll text, c.card.length = 16 ∧ c.card.all Char.isDigit = true :=
    fun c hc => findAll_card text c hc
  have h := foldl_bad cy tb (findAll text) initState hall
  simpa [processFile, initState] using h

/-- Claim C3: on input `4000123456789010|05|2025|123`, provided the
current two-digit year keeps 25 inside the 6-year recency window and no
BIN filter is set, the pipeline accepts exactly one record
(number `4000123456789010`, month `05`, year `25`, code `123`) and that
record serializes to the line `4000123456789010|05|25|123` (with the
newline every output line carries). -/
theorem claim_C3 (cy : Nat) (h : ¬ ((25 : Int) < (cy : Int) - 6)) :
    (processFile (("4000123456789010|05|2025|123").data) cy none).results =
        [⟨("4000123456789010").data, ("05").data, ("25").data, ("123").data⟩] ∧
      serializeRecord ⟨("4000123456789010").data, ("05").data, ("25").data, ("123").data⟩ =
        ("4000123456789010|05|25|123\n").data := by
  have hF : findAll (("4000123456789010|05|2025|123").data) =
      [⟨("4000123456789010").data, ("05").data, ("2025").data, ("123").data⟩] := by
    decide
  constructor
  · rw [processFile, hF, List.foldl_cons, List.foldl_nil]
    have hv : validateCand cy none
        ⟨("4000123456789010").data, ("05").data, ("2025").data, ("123").data⟩ =
        .ok ⟨("4000123456789010").data, ("05").data, ("25").data, ("123").data⟩ := by
      simp only [validateCand]
      rw [if_neg (by decide), if_neg (by decide), if_neg (by decide)]
      have hy : ¬ ((strToNat (yyCleanInline (("2025").data)) : Int) < (cy : Int) - 6) := by
        have h25 : strToNat (yyCleanInline (("2025").data)) = 25 := by decide
        rw [h25]
        exact_mod_cast h
      rw [if_neg hy, if_neg (by decide)]
      rfl
    simp only [stepCand, hv]
    simp [initState]
  · decide

/-- Claim C3 witness: in the year 2026 (current two-digit year 26) the
hypothesis holds and the record is produced. -/
theorem claim_C3_witness :
    (processFile (("4000123456789010|05|2025|123").data) 26 none).results =
        [⟨("4000123456789010").data, ("05").data, ("25").data, ("123").data⟩] ∧
      serializeRecord ⟨("4000123456789010").data, ("05").data, ("25").data, ("123").data⟩ =
        ("4000123456789010|05|25|123\n").data :=
  claim_C3 26 (by decide)

/-- Claim C5: the month step only left-pads the raw month with `zfill(2)`
and never causes a rejection: replacing the raw month of any candidate
changes nothing but the `expMonth` field of the outcome (the same
rejection reason fires, or the same record is accepted with the padded
new month).  Concretely, the out-of-range month 13 passes through:
input `4000123456789010|13|25|123` is accepted carrying month `13`. -/
theorem claim_C5 :
    (∀ (cy : Nat) (tb : Option (List Char)) (c : Cand) (mm' : List Char),
        validateCand cy tb { c with mm := mm' } =
          Except.map (fun r => { r with expMonth := pyZfill 2 mm' })
            (validateCand cy tb c)) ∧
      (processFile (("4000123456789010|13|25|123").data) 26 none).results =
        [⟨("4000123456789010").data, ("13").data, ("25").data, ("123").data⟩] := by
  constructor
  · intro cy tb c mm'
    simp only [validateCand]
    by_cases h1 : c.card.length ≠ 16
    · rw [if_pos h1, if_pos h1]
      rfl
    rw [if_neg h1, if_neg h1]
    by_cases h2 : ¬ c.card.all Char.isDigit = true
    · rw [if_pos h2, if_pos h2]
      rfl
    rw [if_neg h2, if_neg h2]
    by_cases h3 : pyIsDigit (pyStrip c.cvv) = false ∨
        ¬ ((pyStrip c.cvv).length = 3 ∨ (pyStrip c.cvv).length = 4)
    · rw [if_pos h3, if_pos h3]
      rfl
    rw [if_neg h3, if_neg h3]
    by_cases h4 : (strToNat (yyCleanInline c.yy) : Int) < (cy : Int) - 6
    · rw [if_pos h4, if_pos h4]
      rfl
    rw [if_neg h4, if_neg h4]
    by_cases h5 : binRejects tb c.card = true
    · rw [if_pos h5, if_pos h5]
      rfl
    rw [if_neg h5, if_neg h5]
    rfl
  · decide

/-- Claim C6: for a candidate that passes the length, digit and code
checks, the validator reports `old` (Expired) exactly when the
normalized two-digit year, read as an integer, is strictly below the
current two-digit year minus 6; otherwise the recency step passes the
candidate on (to the BIN step or acceptance).  The digit hypothesis on
the raw year reflects that the extractor only emits digit runs, which
is what makes the Python `int()` call total. -/
theorem claim_C6 (cy : Nat) (tb : Option (List Char)) (c : Cand)
    (h16 : c.card.length = 16) (hdig : c.card.all Char.isDigit = true)
    (_hyy : c.yy.all Char.isDigit = true)
    (hcvv : pyIsDigit (pyStrip c.cvv) = true ∧
      ((pyStrip c.cvv).length = 3 ∨ (pyStrip c.cvv).length = 4)) :
    (validateCand cy tb c = .error .old ↔
      (strToNat (yyCleanInline c.yy) : Int) < (cy : Int) - 6) := by
  simp only [validateCand]
  rw [if_neg (by simp [h16]), if_neg (by simp [hdig])]
  have h3 : ¬ (pyIsDigit (pyStrip c.cvv) = false ∨
      ¬ ((pyStrip c.cvv).length = 3 ∨ (pyStrip c.cvv).length = 4)) := by
    push_neg
    exact ⟨by simp [hcvv.1], hcvv.2⟩
  rw [if_neg h3]
  by_cases h4 : (strToNat (yyCleanInline c.yy) : Int) < (cy : Int) - 6
  · rw [if_pos h4]
    simp [h4]
  · rw [if_neg h4]
    constructor
    · intro hres
      by_cases h5 : binRejects tb c.card = true
      · rw [if_pos h5] at hres
        exact absurd hres (by simp)
      · rw [if_neg h5] at hres
        exact absurd hres (by simp)
    · intro hlt
      exact absurd hlt h4

/-- Claim C6 witness: with current two-digit year 33 a candidate with
normalized year 20 is rejected as old, via the theorem. -/
theorem claim_C6_witness :
    validateCand 33 none
        ⟨("4000123456789010").data, ("01").data, ("20").data, ("123").data⟩ =
      .error .old :=
  (claim_C6 33 none
      ⟨("4000123456789010").data, ("01").data, ("20").data, ("123").data⟩
      (by decide) (by decide) (by decide) (by decide)).mpr (by decide)

/-- Claim C7: the normalized year is the rightmost two characters of the
raw year, left-padded with zeros to length 2 — both in the pipeline's
inline normalization `yy[-2:].zfill(2)` and in the `normalize_exp`
helper (whose conditional year branch computes the same value). -/
theorem claim_C7 :
    (∀ yy : List Char, yyCleanInline yy = pyZfill 2 (takeRight 2 yy)) ∧
      (∀ e : List Char, '|' ∈ cleanExp e →
        normalize_exp e =
          pyZfill 2 ((cleanExp e).takeWhile (fun c => c != '|')) ++
            '|' :: pyZfill 2 (takeRight 2 (((cleanExp e).dropWhile (fun c => c != '|')).tail))) := by
  constructor
  · intro yy
    rfl
  · intro e h
    simp only [normalize_exp]
    rw [if_pos h, yearNorm_eq_takeRight]

/-- Claim C7 witness: the helper applied to `7|2025`, via the theorem. -/
theorem claim_C7_witness : normalize_exp (("7|2025").data) = ("07|25").data := by
  have h := claim_C7.2 (("7|2025").data) (by decide)
  rw [h]
  decide

/-! ### Edge-character lemmas for `pyStrip` and `cleanExp`

The key invariant behind the idempotence of `normalize_exp` is that a
cleaned string never starts or ends with whitespace and contains no `/`
and no space, so cleaning it again is the identity. -/

lemma head?_dropWhile_not (p : Char → Bool) (l : List Char) {c : Char}
    (h : (l.dropWhile p).head? = some c) : p c = false := by
  induction l with
  | nil => simp at h
  | cons a t ih =>
    rw [List.dropWhile_cons] at h
    split at h
    · exact ih h
    · rename_i hpa
      simp only [List.head?_cons, Option.some.injEq] at h
      subst h
      simpa using hpa

lemma getLast?_of_suffix {l' l : List Char} (h : l' <:+ l) {c : Char}
    (hc : l'.getLast? = some c) : l.getLast? = some c := by
  obtain ⟨t, rfl⟩ := h
  rw [List.getLast?_append, hc]
  rfl

lemma head?_pyStrip {s : List Char} {c : Char} (h : (pyStrip s).head? = some c) :
    isPySpace c = false := by
  unfold pyStrip at h
  rw [List.head?_reverse] at h
  have h2 := getLast?_of_suffix (List.dropWhile_suffix isPySpace) h
  rw [List.getLast?_reverse] at h2
  exact head?_dropWhile_not _ _ h2

lemma getLast?_pyStrip {s : List Char} {c : Char} (h : (pyStrip s).getLast? = some c) :
    isPySpace c = false := by
  unfold pyStrip at h
  rw [List.getLast?_reverse] at h
  exact head?_dropWhile_not _ _ h

lemma dropWhile_eq_self_of_head? (p : Char → Bool) (l : List Char)
    (h : ∀ c, l.head? = some c → p c = false) : l.dropWhile p = l := by
  cases l with
  | nil => rfl
  | cons a t =>
    rw [List.dropWhile_cons, if_neg (by simp [h a rfl])]

lemma pyStrip_eq_self {s : List Char}
    (h1 : ∀ c, s.head? = some c → isPySpace c = false)
    (h2 : ∀ c, s.getLast? = some c → isPySpace c = false) : pyStrip s = s := by
  unfold pyStrip
  rw [dropWhile_eq_self_of_head? _ _ h1]
  rw [dropWhile_eq_self_of_head? _ _
    (fun c hc => h2 c (by rwa [List.head?_reverse] at hc))]
  exact List.reverse_reverse s

lemma replaceSlash_eq_self {s : List Char} (h : ∀ c ∈ s, c ≠ '/') :
    replaceSlash s = s := by
  unfold replaceSlash
  have he : ∀ a ∈ s, (if a = '/' then '|' else a) = a := fun a ha => if_neg (h a ha)
  rw [List.map_congr_left he]
  exact List.map_id s

lemma not_slash_mem_replaceSlash {s : List Char} : ∀ c ∈ replaceSlash s, c ≠ '/' := by
  intro c hc
  unfold replaceSlash at hc
  obtain ⟨a, _, rfl⟩ := List.mem_map.mp hc
  split
  · decide
  · rename_i hne
    exact hne

lemma isPySpace_replaceChar (a : Char) :
    isPySpace (if a = '/' then '|' else a) = isPySpace a := by
  split
  · rename_i ha
    rw [ha]
    decide
  · rfl

lemma removeSpaces_eq_self {s : List Char} (h : ∀ c ∈ s, c ≠ ' ') :
    removeSpaces s = s := by
  unfold removeSpaces
  rw [List.filter_eq_self.mpr]
  intro a ha
  simp [h a ha]

lemma not_space_mem_removeSpaces {s : List Char} : ∀ c ∈ removeSpaces s, c ≠ ' ' := by
  intro c hc
  unfold removeSpaces at hc
  simpa using List.of_mem_filter hc

/-- Core step: mapping slashes away and filtering spaces out preserves
a non-whitespace first character. -/
lemma head?_cleanCore (t : List Char)
    (ht : ∀ c, t.head? = some c → isPySpace c = false) :
    ∀ c, ((t.map (fun a => if a = '/' then '|' else a)).filter
        (fun a => a != ' ')).head? = some c → isPySpace c = false := by
  intro c hc
  cases t with
  | nil => simp at hc
  | cons a u =>
    have ha : isPySpace a = false := ht a rfl
    have hfa : isPySpace (if a = '/' then '|' else a) = false := by
      rw [isPySpace_replaceChar]
      exact ha
    have hne : ((if a = '/' then '|' else a) != ' ') = true := by
      have hns : (if a = '/' then '|' else a) ≠ ' ' := by
        intro he
        rw [he] at hfa
        exact absurd hfa (by decide)
      simpa using hns
    rw [List.map_cons, List.filter_cons, if_pos hne] at hc
    simp only [List.head?_cons, Option.some.injEq] at hc
    subst hc
    exact hfa

lemma head?_cleanExp {s : List Char} {c : Char} (h : (cleanExp s).head? = some c) :
    isPySpace c = false := by
  unfold cleanExp removeSpaces replaceSlash at h
  exact head?_cleanCore (pyStrip s) (fun d hd => head?_pyStrip hd) c h

lemma getLast?_cleanExp {s : List Char} {c : Char} (h : (cleanExp s).getLast? = some c) :
    isPySpace c = false := by
  unfold cleanExp removeSpaces replaceSlash at h
  rw [← List.head?_reverse, ← List.filter_reverse, ← List.map_reverse] at h
  exact head?_cleanCore (pyStrip s).reverse
    (fun d hd => getLast?_pyStrip (by rwa [List.head?_reverse] at hd)) c h

lemma cleanExp_no_slash {s : List Char} : ∀ c ∈ cleanExp s, c ≠ '/' := by
  intro c hc
  unfold cleanExp removeSpaces at hc
  exact not_slash_mem_replaceSlash _ (List.mem_of_mem_filter hc)

lemma cleanExp_no_space {s : List Char} : ∀ c ∈ cleanExp s, c ≠ ' ' := by
  intro c hc
  unfold cleanExp at hc
  exact not_space_mem_removeSpaces _ hc

lemma cleanExp_eq_self {s : List Char}
    (h1 : ∀ c, s.head? = some c → isPySpace c = false)
    (h2 : ∀ c, s.getLast? = some c → isPySpace c = false)
    (h3 : ∀ c ∈ s, c ≠ '/') (h4 : ∀ c ∈ s, c ≠ ' ') : cleanExp s = s := by
  unfold cleanExp
  rw [pyStrip_eq_self h1 h2, replaceSlash_eq_self h3, removeSpaces_eq_self h4]

/-- Cleaning is idempotent. -/
lemma cleanExp_idem (s : List Char) : cleanExp (cleanExp s) = cleanExp s :=
  cleanExp_eq_self (fun _ h => head?_cleanExp h) (fun _ h => getLast?_cleanExp h)
    cleanExp_no_slash cleanExp_no_space

lemma head?_pyZfill_or (w : Nat) (s : List Char) :
    (pyZfill w s).head? = s.head? ∨ (pyZfill w s).head? = some '0' := by
  cases s with
  | nil =>
    cases w with
    | zero => left; rfl
    | succ n => right; rfl
  | cons a rest =>
    simp only [pyZfill]
    split
    · left
      rfl
    · cases hk : w - (a :: rest).length with
      | zero =>
        left
        rfl
      | succ n =>
        right
        rfl

lemma getLast?_pyZfill_or (w : Nat) (s : List Char) :
    (pyZfill w s).getLast? = s.getLast? ∨ (pyZfill w s).getLast? = some '0' := by
  cases s with
  | nil =>
    cases w with
    | zero => left; rfl
    | succ n =>
      right
      simp only [pyZfill]
      rw [List.replicate_succ']
      exact List.getLast?_concat _
  | cons a rest =>
    simp only [pyZfill]
    split
    · cases hr : rest.getLast? with
      | some d =>
        left
        rw [show a :: (List.replicate (w - (a :: rest).length) '0' ++ rest) =
            (a :: List.replicate (w - (a :: rest).length) '0') ++ rest from rfl]
        rw [List.getLast?_append, hr]
        rw [show (a :: rest) = [a] ++ rest from rfl, List.getLast?_append, hr]
        rfl
      | none =>
        have hre : rest = [] := by rwa [List.getLast?_eq_none_iff] at hr
        subst hre
        cases hk : w - (a :: ([] : List Char)).length with
        | zero =>
          left
          rfl
        | succ n =>
          right
          rw [List.append_nil, List.replicate_succ']
          rw [show a :: (List.replicate n '0' ++ ['0']) =
              (a :: List.replicate n '0') ++ ['0'] from rfl]
          exact List.getLast?_concat _
    · left
      rw [List.getLast?_append]
      cases hg : (a :: rest).getLast? with
      | none =>
        rw [List.getLast?_eq_none_iff] at hg
        exact absurd hg (by simp)
      | some d => rfl

lemma head?_pyZfill {w : Nat} {s : List Char}
    (hs : ∀ c, s.head? = some c → isPySpace c = false) :
    ∀ c, (pyZfill w s).head? = some c → isPySpace c = false := by
  intro c hc
  rcases head?_pyZfill_or w s with h | h
  · rw [h] at hc
    exact hs c hc
  · rw [h] at hc
    injection hc with h'
    subst h'
    decide

lemma getLast?_pyZfill {w : Nat} {s : List Char}
    (hs : ∀ c, s.getLast? = some c → isPySpace c = false) :
    ∀ c, (pyZfill w s).getLast? = some c → isPySpace c = false := by
  intro c hc
  rcases getLast?_pyZfill_or w s with h | h
  · rw [h] at hc
    exact hs c hc
  · rw [h] at hc
    injection hc with h'
    subst h'
    decide

lemma mem_pyZfill {w : Nat} {s : List Char} : ∀ c ∈ pyZfill w s, c ∈ s ∨ c = '0' := by
  intro c hc
  cases s with
  | nil =>
    simp only [pyZfill] at hc
    right
    exact List.eq_of_mem_replicate hc
  | cons a rest =>
    simp only [pyZfill] at hc
    split at hc
    · rcases List.mem_cons.mp hc with rfl | hmem
      · left
        exact List.mem_cons_self _ _
      · rcases List.mem_append.mp hmem with hrep | hr
        · right
          exact List.eq_of_mem_replicate hrep
        · left
          exact List.mem_cons_of_mem _ hr
    · rcases List.mem_append.mp hc with hrep | hr
      · right
        exact List.eq_of_mem_replicate hrep
      · left
        exact hr

lemma head?_takeWhile {p : Char → Bool} {l : List Char} {c : Char}
    (h : (l.takeWhile p).head? = some c) : l.head? = some c := by
  cases l with
  | nil => simp at h
  | cons a t =>
    rw [List.takeWhile_cons] at h
    split at h
    · simp only [List.head?_cons, Option.some.injEq] at h ⊢
      exact h
    · simp at h

lemma takeWhile_append_bar {A B : List Char} (hA : ∀ c ∈ A, (c != '|') = true) :
    (A ++ '|' :: B).takeWhile (fun c => c != '|') = A := by
  induction A with
  | nil => simp [List.takeWhile_cons]
  | cons a A' ih =>
    rw [List.cons_append, List.takeWhile_cons, if_pos (hA a (List.mem_cons_self a A'))]
    rw [ih (fun c hc => hA c (List.mem_cons_of_mem a hc))]

lemma dropWhile_append_bar {A B : List Char} (hA : ∀ c ∈ A, (c != '|') = true) :
    (A ++ '|' :: B).dropWhile (fun c => c != '|') = '|' :: B := by
  induction A with
  | nil => simp [List.dropWhile_cons]
  | cons a A' ih =>
    rw [List.cons_append, List.dropWhile_cons, if_pos (hA a (List.mem_cons_self a A'))]
    exact ih (fun c hc => hA c (List.mem_cons_of_mem a hc))

lemma yearNorm_idem (y : List Char) : yearNorm (yearNorm y) = yearNorm y := by
  rw [yearNorm_eq_takeRight (yearNorm y),
      takeRight_of_le 2 _ (by simp [length_yearNorm]),
      pyZfill_of_le 2 _ (by simp [length_yearNorm])]

/-- The output of the separator branch of `normalize_exp` is already
clean: it starts and ends with a non-whitespace character and contains
no slash and no space. -/
lemma padded_clean {m y : List Char}
    (hmHead : ∀ c, m.head? = some c → isPySpace c = false)
    (hyLast : ∀ c, y.getLast? = some c → isPySpace c = false)
    (hm : ∀ c ∈ m, c ≠ '/' ∧ c ≠ ' ')
    (hy : ∀ c ∈ y, c ≠ '/' ∧ c ≠ ' ') :
    cleanExp (pyZfill 2 m ++ '|' :: yearNorm y) =
      pyZfill 2 m ++ '|' :: yearNorm y := by
  have hyn : ∀ c ∈ yearNorm y, c ∈ y ∨ c = '0' := by
    intro c hc
    rw [yearNorm_eq_takeRight] at hc
    rcases mem_pyZfill c hc with h | h
    · left
      unfold takeRight at h
      exact List.drop_subset _ _ h
    · right
      exact h
  apply cleanExp_eq_self
  · intro c hc
    rw [List.head?_append] at hc
    cases hA : (pyZfill 2 m).head? with
    | none =>
      rw [List.head?_eq_none_iff] at hA
      have hlen := length_pyZfill 2 m
      rw [hA] at hlen
      simp only [List.length_nil] at hlen
      omega
    | some d =>
      rw [hA] at hc
      have hred : (Option.some d).or (('|' :: yearNorm y).head?) = some d := rfl
      rw [hred] at hc
      injection hc with hdc
      subst hdc
      exact head?_pyZfill hmHead d hA
  · intro c hc
    rw [List.getLast?_append] at hc
    cases hyn2 : ('|' :: yearNorm y).getLast? with
    | none =>
      rw [List.getLast?_eq_none_iff] at hyn2
      exact absurd hyn2 (by simp)
    | some d =>
      rw [hyn2] at hc
      have hred : (Option.some d).or ((pyZfill 2 m).getLast?) = some d := rfl
      rw [hred] at hc
      injection hc with hdc
      subst hdc
      have hynnil : yearNorm y ≠ [] := by
        intro h0
        have := length_yearNorm y
        rw [h0] at this
        simp at this
      rw [show ('|' :: yearNorm y) = ['|'] ++ yearNorm y from rfl,
        List.getLast?_append] at hyn2
      cases hg : (yearNorm y).getLast? with
      | none =>
        rw [List.getLast?_eq_none_iff] at hg
        exact absurd hg hynnil
      | some e =>
        rw [hg] at hyn2
        have hred2 : (Option.some e).or ((['|'] : List Char).getLast?) = some e := rfl
        rw [hred2] at hyn2
        injection hyn2 with hed
        subst hed
        rw [yearNorm_eq_takeRight] at hg
        refine getLast?_pyZfill ?_ _ hg
        intro c' hc'
        have hsuf : takeRight 2 y <:+ y := by
          unfold takeRight
          exact List.drop_suffix _ _
        exact hyLast c' (getLast?_of_suffix hsuf hc')
  · intro c hc
    rcases List.mem_append.mp hc with hA | hB
    · rcases mem_pyZfill c hA with h | rfl
      · exact (hm c h).1
      · decide
    · rcases List.mem_cons.mp hB with rfl | hynm
      · decide
      · rcases hyn c hynm with h | rfl
        · exact (hy c h).1
        · decide
  · intro c hc
    rcases List.mem_append.mp hc with hA | hB
    · rcases mem_pyZfill c hA with h | rfl
      · exact (hm c h).2
      · decide
    · rcases List.mem_cons.mp hB with rfl | hynm
      · decide
      · rcases hyn c hynm with h | rfl
        · exact (hy c h).2
        · decide

/-- Claim C9: `normalize_exp` is idempotent on every input string —
normalizing an already-normalized expiration is a no-op. -/
theorem claim_C9 (x : List Char) :
    normalize_exp (normalize_exp x) = normalize_exp x := by
  by_cases hbar : '|' ∈ cleanExp x
  · have h1 : normalize_exp x =
        pyZfill 2 ((cleanExp x).takeWhile (fun c => c != '|')) ++
          '|' :: yearNorm (((cleanExp x).dropWhile (fun c => c != '|')).tail) := by
      simp only [normalize_exp]
      rw [if_pos hbar]
    rw [h1]
    have hsuf : ((cleanExp x).dropWhile (fun c => c != '|')).tail <:+ cleanExp x :=
      (List.tail_suffix _).trans (List.dropWhile_suffix _)
    have hmHead : ∀ c, ((cleanExp x).takeWhile (fun c => c != '|')).head? = some c →
        isPySpace c = false :=
      fun c hc => head?_cleanExp (head?_takeWhile hc)
    have hyLast : ∀ c,
        ((((cleanExp x).dropWhile (fun c => c != '|')).tail).getLast? = some c) →
        isPySpace c = false :=
      fun c hc => getLast?_cleanExp (getLast?_of_suffix hsuf hc)
    have hm : ∀ c ∈ (cleanExp x).takeWhile (fun c => c != '|'), c ≠ '/' ∧ c ≠ ' ' := by
      intro c hc
      have hmem : c ∈ cleanExp x := List.takeWhile_subset _ hc
      exact ⟨cleanExp_no_slash c hmem, cleanExp_no_space c hmem⟩
    have hy : ∀ c ∈ ((cleanExp x).dropWhile (fun c => c != '|')).tail,
        c ≠ '/' ∧ c ≠ ' ' := by
      intro c hc
      have hmem : c ∈ cleanExp x := hsuf.subset hc
      exact ⟨cleanExp_no_slash c hmem, cleanExp_no_space c hmem⟩
    have hmbar : ∀ c ∈ pyZfill 2 ((cleanExp x).takeWhile (fun c => c != '|')),
        (c != '|') = true := by
      intro c hc
      rcases mem_pyZfill c hc with h | rfl
      · exact @List.mem_takeWhile_imp _ (fun c => c != '|') _ _ h
      · decide
    simp only [normalize_exp]
    rw [padded_clean hmHead hyLast hm hy]
    rw [if_pos (List.mem_append_right _ (List.mem_cons_self _ _))]
    rw [takeWhile_append_bar hmbar, dropWhile_append_bar hmbar]
    rw [List.tail_cons]
    rw [pyZfill_of_le 2 _ (by rw [length_pyZfill]; omega), yearNorm_idem]
  · have h1 : normalize_exp x = cleanExp x := by
      simp only [normalize_exp]
      rw [if_neg hbar]
    rw [h1]
    simp only [normalize_exp]
    rw [cleanExp_idem x]
    rw [if_neg hbar]

end TextScrapper
